import Mathlib

/-!
A shallow embedding of pyethapp's storage and block-stream pipeline:
the `CodernityDB` buffered store (`pyethapp/codernitydb_service.py`) and
the block import/export commands (`pyethapp/app.py`), together with
proofs about them.

Byte strings are modelled as `List Nat`.  External collaborators that are
not part of this repository (the `ethereum.compress` codec, the RLP item
decoder, the chain-linkage oracle and the gevent block queue) are modelled
from the spec, as documented on each definition.
-/

namespace Pyethapp

/-- A key of the store: an opaque byte string. -/
abbrev Key := List Nat

/-- A value of the store: a byte string. -/
abbrev Value := List Nat

/-! ### Compressor

Modelled from the spec: the `ethereum.compress` module is an external
dependency (not under `pyethapp/`).  The spec describes it as a
"reversible byte-stream codec applied to stored values" whose
`decompress` "on non-conforming input signals a CorruptValue error".
We model it as an escape-byte run-length codec: byte `254` is the escape,
`254,0` encodes a literal `254`, and `254,k` (with `1 ≤ k ≤ 255`) encodes a
run of `k` zero bytes; any other byte is copied verbatim. -/

/-- Number of leading zero bytes of a byte string. -/
def countLeadZeros : List Nat → Nat
  | 0 :: rest => countLeadZeros rest + 1
  | _ => 0

/-- `compress` : escape `254`, run-length encode zero runs (capped at 255). -/
def compress : List Nat → List Nat
  | [] => []
  | b :: rest =>
    if b = 254 then
      254 :: 0 :: compress rest
    else if b = 0 then
      254 :: min 255 (countLeadZeros rest + 1) ::
        compress (rest.drop (min 255 (countLeadZeros rest + 1) - 1))
    else
      b :: compress rest
termination_by l => l.length
decreasing_by
  · simp
  · simp only [List.length_drop, List.length_cons]
    omega
  · simp

/-- `decompress` : inverse of `compress`; `none` models the CorruptValue
error on non-conforming input (a trailing lone escape byte). -/
def decompress : List Nat → Option (List Nat)
  | [] => some []
  | b :: rest =>
    if b = 254 then
      match rest with
      | [] => none
      | c :: rest' =>
        if c = 0 then (decompress rest').map (fun t => 254 :: t)
        else (decompress rest').map (fun t => List.replicate c 0 ++ t)
    else
      (decompress rest).map (fun t => b :: t)

/-! ### BackingIndex

Modelled from the spec: the durable CodernityDB database is an external
dependency.  Per spec §3 the BackingIndex is "a durable mapping from key to
compressed value"; per §6 it exposes point lookup (raising a not-found
condition when the key is absent), insert (write/overwrite) and
delete-by-document.  We model it as an association list with unique-key
(overwrite-on-insert) semantics. -/

/-- The durable backing index: a mapping from keys to (compressed) values. -/
abbrev BackingIndex := List (Key × Value)

/-- Point lookup in the backing index (`db.get('key', k, with_doc=True)`);
`none` models the `RecordNotFound` condition. -/
def bidxLookup : BackingIndex → Key → Option Value
  | [], _ => none
  | (k', v) :: rest, k => if k' = k then some v else bidxLookup rest k

/-- Insert into the backing index (`db.insert({'key': k, 'value': v})`),
overwriting any existing entry for the key. -/
def bidxInsert : BackingIndex → Key → Value → BackingIndex
  | [], k, v => [(k, v)]
  | (k', v') :: rest, k, v =>
    if k' = k then (k, v) :: rest else (k', v') :: bidxInsert rest k v

/-- Delete-by-document from the backing index (`db.delete(doc)`). -/
def bidxDelete : BackingIndex → Key → BackingIndex
  | [], _ => []
  | (k', v') :: rest, k =>
    if k' = k then rest else (k', v') :: bidxDelete rest k

/-! ### The write buffer

`self.uncommitted` is a Python dict mapping keys to values, where the
value `None` is the tombstone left by `delete`.  We model it as an
association list of `Key × Option Value` with dict (unique-key,
overwrite-in-place) update semantics. -/

/-- The in-memory write buffer: `None` values are tombstones. -/
abbrev WriteBuffer := List (Key × Option Value)

/-- Dict lookup `self.uncommitted[key]` (with `key in self.uncommitted`
modelled by the result being `some _`). -/
def wbLookup : WriteBuffer → Key → Option (Option Value)
  | [], _ => none
  | (k', v) :: rest, k => if k' = k then some v else wbLookup rest k

/-- Dict update `self.uncommitted[key] = value`: overwrite in place, or
append a new entry. -/
def wbSet : WriteBuffer → Key → Option Value → WriteBuffer
  | [], k, v => [(k, v)]
  | (k', v') :: rest, k, v =>
    if k' = k then (k, v) :: rest else (k', v') :: wbSet rest k v

/-- The keys of a write buffer. -/
def wbKeys (buf : WriteBuffer) : List Key := buf.map Prod.fst

/-! ### The CodernityDB service (`pyethapp/codernitydb_service.py`) -/

/-- The mutable state of a `CodernityDB` service instance: the
`uncommitted` write buffer and the backing database. -/
structure CodernityDB where
  uncommitted : WriteBuffer
  db : BackingIndex
deriving DecidableEq, Repr

/-- Errors surfaced by the store (Python exceptions): `notFound` models
`KeyError("key not in db")`, `recordNotFound` the CodernityDB
`RecordNotFound` exception, `corruptValue` a decompression failure on
backing-store data. -/
inductive DBError where
  | notFound
  | recordNotFound
  | corruptValue
deriving DecidableEq, Repr

/-- The backing-index half of `get`: look the key up in the database and
decompress the stored value (`compress.decompress(value)`). -/
def backingGet (db : BackingIndex) (key : Key) : Except DBError Value :=
  match bidxLookup db key with
  | none => .error .notFound
  | some raw =>
    match decompress raw with
    | none => .error .corruptValue
    | some v => .ok v

/-- `CodernityDB.get`: consult the write buffer first (a tombstone raises
`KeyError`, a pending value is returned uncompressed), otherwise fall
through to the backing index and decompress. -/
def get (s : CodernityDB) (key : Key) : Except DBError Value :=
  match wbLookup s.uncommitted key with
  | some none => .error .notFound
  | some (some v) => .ok v
  | none => backingGet s.db key

/-- `CodernityDB.put`: store the value in the write buffer.  Python's
`put` accepts any value including `None`, which is exactly the tombstone
`delete` writes, hence the `Option Value` argument. -/
def put (s : CodernityDB) (key : Key) (value : Option Value) : CodernityDB :=
  { s with uncommitted := wbSet s.uncommitted key value }

/-- `CodernityDB.delete`: store a tombstone (`None`) in the write buffer. -/
def delete (s : CodernityDB) (key : Key) : CodernityDB :=
  { s with uncommitted := wbSet s.uncommitted key none }

/-- `CodernityDB.__contains__`: `get` succeeding; `KeyError` is caught and
yields `false`, any other exception propagates. -/
def contains (s : CodernityDB) (key : Key) : Except DBError Bool :=
  match get s key with
  | .ok _ => .ok true
  | .error .notFound => .ok false
  | .error e => .error e

/-- One iteration of the `commit` loop: a tombstone looks the key up in
the backing index (raising `RecordNotFound` when absent, which `commit`
does not catch) and deletes the document; a pending value is compressed
and inserted. -/
def commitStep (db : BackingIndex) (k : Key) (v : Option Value) :
    Except DBError BackingIndex :=
  match v with
  | none =>
    match bidxLookup db k with
    | none => .error .recordNotFound
    | some _ => .ok (bidxDelete db k)
  | some val => .ok (bidxInsert db k (compress val))

/-- The `commit` loop over `list(self.uncommitted.items())`: applies
`commitStep` to each entry in order; an exception stops the loop, leaving
the database as updated so far. -/
def commitLoop (db : BackingIndex) : WriteBuffer → BackingIndex × Option DBError
  | [] => (db, none)
  | (k, v) :: rest =>
    match commitStep db k v with
    | .error e => (db, some e)
    | .ok db' => commitLoop db' rest

/-- `CodernityDB.commit`: run the loop over the buffered entries; only
when the whole loop finishes is `self.uncommitted.clear()` reached.  An
exception mid-loop propagates, leaving the write buffer untouched and the
backing index partially updated. -/
def commit (s : CodernityDB) : CodernityDB × Option DBError :=
  match commitLoop s.db s.uncommitted with
  | (db', none) => (⟨[], db'⟩, none)
  | (db', some e) => (⟨s.uncommitted, db'⟩, some e)

/-- Apply a sequence of buffered entries to the backing index,
`none` if any step raises: the successfully applied portion of a commit. -/
def applyEntries (db : BackingIndex) : WriteBuffer → Option BackingIndex
  | [] => some db
  | (k, v) :: rest =>
    match commitStep db k v with
    | .error _ => none
    | .ok db' => applyEntries db' rest

/-! ### Block stream decoder (the `blocks` generator in `pyethapp/app.py`)

Modelled from the spec: `rlp.codec.consume_item` and
`TransientBlock.init_from_rlp` are external dependencies (not under
`pyethapp/`).  Per spec §6 the stream is "a concatenation of
self-delimiting encoded items; each item, when parsed, is a 3-element
structure [header, transaction-list, uncle-list]".  We model an item as
either a byte string or a flat list of byte-string fields, in a
self-delimiting tag/length/payload encoding. -/

/-- A parsed stream item: a byte string, or a list of byte-string fields. -/
inductive ItemData where
  | str (bs : List Nat)
  | items (fields : List (List Nat))
deriving DecidableEq, Repr

/-- A decoded block record: the three top-level fields of a block item. -/
structure BlockRecord where
  header : List Nat
  txs : List Nat
  uncles : List Nat
deriving DecidableEq, Repr

/-- Encoding of one byte-string field: tag `0`, length, payload. -/
def encodeStr (s : List Nat) : List Nat := 0 :: s.length :: s

/-- Encoding of a block record as a well-formed stream item: tag `1`, the
payload length, and the three encoded fields as payload. -/
def encodeBlock (b : BlockRecord) : List Nat :=
  let payload := encodeStr b.header ++ encodeStr b.txs ++ encodeStr b.uncles
  1 :: payload.length :: payload

/-- Parse a payload as the sequence of encoded byte-string fields that
consumes it exactly. -/
def parseStrs : List Nat → Option (List (List Nat))
  | [] => some []
  | 0 :: len :: rest =>
    if len ≤ rest.length then
      (parseStrs (rest.drop len)).map (fun xs => rest.take len :: xs)
    else none
  | _ => none
termination_by l => l.length
decreasing_by
  simp only [List.length_drop, List.length_cons]
  omega

/-- `rlp.codec.consume_item`, modelled from the spec: parse one
self-delimiting item at the head of the byte string, returning the item
and the number of bytes it occupies; `none` models `rlp.DecodingError`
(the length of the bad item cannot be determined). -/
def consume : List Nat → Option (ItemData × Nat)
  | 0 :: len :: rest =>
    if len ≤ rest.length then some (.str (rest.take len), 2 + len) else none
  | 1 :: len :: rest =>
    if len ≤ rest.length then
      match parseStrs (rest.take len) with
      | some xs => some (.items xs, 2 + len)
      | none => none
    else none
  | _ => none

/-- `TransientBlock.init_from_rlp` together with the
`isinstance(block_data, list) and len(block_data) == 3` check, modelled
from the spec: an item is a valid block record iff it is a list of exactly
three top-level fields; `none` models the `DeserializationError` path on
which the generator yields `None` ("not a valid block"). -/
def toBlock : ItemData → Option BlockRecord
  | .items [h, t, u] => some ⟨h, t, u⟩
  | _ => none

/-- One run of the `blocks()` generator over the remaining bytes `l`,
starting at stream offset `off`: returns the list of yielded results
(`some record` for a valid block, `none` for a well-framed but invalid
item), the offset of the fatal RLP decoding error if one occurred
(`sys.exit(1)`), and the final cursor offset. -/
def blocksAux (l : List Nat) (off : Nat) :
    List (Option BlockRecord) × Option Nat × Nat :=
  match l with
  | [] => ([], none, off)
  | a :: rest =>
    match h : consume (a :: rest) with
    | none => ([], some off, off)
    | some (it, n) =>
      let r := blocksAux ((a :: rest).drop n) (off + n)
      (toBlock it :: r.1, r.2.1, r.2.2)
termination_by l.length
decreasing_by
  simp only [List.length_drop, List.length_cons]
  rw [consume.eq_def] at h
  split at h
  · split at h
    · simp only [Option.some.injEq, Prod.mk.injEq] at h
      omega
    · exact absurd h (by simp)
  · split at h
    · split at h
      · simp only [Option.some.injEq, Prod.mk.injEq] at h
        omega
      · exact absurd h (by simp)
    · exact absurd h (by simp)
  · exact absurd h (by simp)

/-- The `blocks()` generator run over a whole stream from offset `0`. -/
def blocks (data : List Nat) : List (Option BlockRecord) × Option Nat × Nat :=
  blocksAux data 0

/-! ### Import pipeline (`import_blocks` in `pyethapp/app.py`) -/

/-- Modelled from the spec: a block record is "identified by hash (derived
from header)"; the hash is a byte string derived from the header field. -/
def blockHash (b : BlockRecord) : List Nat := 0 :: b.header

/-- Modelled from the spec: the record's "previous-hash (parent link)",
a byte string carried by the header field. -/
def parentHash (b : BlockRecord) : List Nat := 1 :: b.header

/-- Outcome of an `import_blocks` call. -/
inductive ImportOutcome where
  /-- `next(blocks())` on an empty stream raises `StopIteration`. -/
  | emptyInput
  /-- `sys.exit(1)`: invalid RLP encoding of the first item. -/
  | fatalRLP (off : Nat)
  /-- `sys.exit(1)`: "first block invalid". -/
  | firstInvalid
  /-- `sys.exit(1)`: "unlinked chains". -/
  | unlinkedChain
  /-- `sys.exit(1)`: invalid RLP encoding later in the import loop. -/
  | fatalLater (off : Nat)
  /-- Normal return after the drain barrier, with the queue length
  observed at loop exit. -/
  | done (observedQueue : Nat)
deriving DecidableEq, Repr

/-- The drain barrier
`while not app.services.chain.block_queue.empty(): gevent.sleep()`,
modelled from the spec: the external chain processor consumes the queue
concurrently.  `q` is the observed queue length, `c` the external
consumer's effect on it across one `sleep`, and the fuel bounds the
number of observations (`none` models a loop that never exits).  Returns
the queue length observed when the loop exits. -/
def drainLoop : Nat → Nat → (Nat → Nat) → Option Nat
  | 0, q, _ => if q = 0 then some q else none
  | fuel + 1, q, c => if q = 0 then some q else drainLoop fuel (c q) c

/-- `import_blocks` from `pyethapp/app.py`: decode the first item
(`next(blocks())`) and abort on a fatal RLP error or an invalid first
block; abort with "unlinked chains" when neither the first block's hash
nor its parent hash is known to the chain (`knows`); otherwise run the
generator over the whole stream, enqueueing every valid block in decode
order (`chain.add_block`) and skipping invalid ones, then block on the
drain barrier.  Returns the outcome paired with the records enqueued
during the call; `none` models a call that never returns. -/
def import_blocks (knows : List Nat → Bool) (consumer : Nat → Nat)
    (fuel : Nat) (data : List Nat) :
    Option (ImportOutcome × List BlockRecord) :=
  match data with
  | [] => some (.emptyInput, [])
  | _ :: _ =>
    match consume data with
    | none => some (.fatalRLP 0, [])
    | some (it, _) =>
      match toBlock it with
      | none => some (.firstInvalid, [])
      | some b =>
        if knows (blockHash b) || knows (parentHash b) then
          let r := blocks data
          let queued := r.1.filterMap id
          match r.2.1 with
          | some off => some (.fatalLater off, queued)
          | none =>
            match drainLoop fuel queued.length consumer with
            | none => none
            | some q => some (.done q, queued)
        else some (.unlinkedChain, [])

/-- A source-level stream item used to build test streams: either a
well-formed block item or a well-framed item that is not a valid block
(here: a byte-string item, which parses but fails the
three-field check). -/
inductive SItem where
  | good (b : BlockRecord)
  | bad (s : List Nat)
deriving DecidableEq, Repr

/-- Encoding of a stream item. -/
def encodeS : SItem → List Nat
  | .good b => encodeBlock b
  | .bad s => 0 :: s.length :: s

/-- The decode result the generator yields for a stream item. -/
def sResult : SItem → Option BlockRecord
  | .good b => some b
  | .bad _ => none

/-- The byte stream that is the concatenation of the given items. -/
def streamOf (its : List SItem) : List Nat := (its.map encodeS).flatten

/-! ### Export pipeline (`export_blocks` in `pyethapp/app.py`) -/

/-- Failure of `export_blocks`: a range-validation failure (`sys.exit(1)`
before any byte is written), or a store error while fetching a block. -/
inductive ExportFail where
  | rangeInvalid
  | dbFail (e : DBError)
deriving DecidableEq, Repr

/-- The export loop: fetch `count` blocks starting at block number `n`,
reading each block's raw stored bytes through `CodernityDB.get` on its
canonical hash and concatenating them in ascending block-number order.
Returns the bytes written and the error, if any, that stopped the loop. -/
def exportLoop (s : CodernityDB) (hashOf : Int → Key) (n : Int) :
    Nat → List Nat × Option DBError
  | 0 => ([], none)
  | count + 1 =>
    match get s (hashOf n) with
    | .error e => ([], some e)
    | .ok v =>
      let r := exportLoop s hashOf (n + 1) count
      (v ++ r.1, r.2)

/-- `export_blocks` from `pyethapp/app.py`, after the defaults for
`from`/`to` have been applied: validate `from ≥ 0`, `to ≥ from` and
`to ≤ head` (each violation is `sys.exit(1)` before any output), then
write the raw stored bytes of every block in `[from, to]`, oldest first.
`head` is the current chain head number and `hashOf` the chain's
canonical number-to-hash resolution (external collaborators).  Returns
the bytes written and the failure, if any. -/
def export_blocks (s : CodernityDB) (head : Int) (hashOf : Int → Key)
    (from_ to_ : Int) : List Nat × Option ExportFail :=
  if from_ < 0 then ([], some .rangeInvalid)
  else if to_ < from_ then ([], some .rangeInvalid)
  else if to_ > head then ([], some .rangeInvalid)
  else
    let r := exportLoop s hashOf from_ (to_ - from_ + 1).toNat
    (r.1, r.2.map ExportFail.dbFail)

/-! ### Compressor lemmas -/

theorem replicate_append_drop_of_le_countLeadZeros :
    ∀ (m : Nat) (l : List Nat), m ≤ countLeadZeros l →
      List.replicate m 0 ++ l.drop m = l := by
  intro m
  induction m with
  | zero => intro l _; simp
  | succ n ih =>
    intro l hm
    match l with
    | [] => simp [countLeadZeros] at hm
    | 0 :: rest =>
      simp only [countLeadZeros, Nat.succ_le_succ_iff] at hm
      simp only [List.replicate_succ, List.drop_succ_cons, List.cons_append,
        List.cons.injEq, true_and]
      exact ih rest hm
    | (n' + 1) :: rest => simp [countLeadZeros] at hm

theorem decompress_esc (rest : List Nat) :
    decompress (254 :: 0 :: rest) = (decompress rest).map (fun t => 254 :: t) := by
  rw [decompress.eq_def]; simp

theorem decompress_run (k : Nat) (hk : k ≠ 0) (rest : List Nat) :
    decompress (254 :: k :: rest)
      = (decompress rest).map (fun t => List.replicate k 0 ++ t) := by
  rw [decompress.eq_def]; simp [hk]

theorem decompress_lit (b : Nat) (hb : b ≠ 254) (rest : List Nat) :
    decompress (b :: rest) = (decompress rest).map (fun t => b :: t) := by
  rw [decompress.eq_def]; simp [hb]

/-- The codec round trip: `decompress` is a left inverse of `compress`. -/
theorem decompress_compress (v : List Nat) : decompress (compress v) = some v := by
  induction v using compress.induct with
  | case1 => simp [compress, decompress]
  | case2 rest ih =>
    have hu : compress (254 :: rest) = 254 :: 0 :: compress rest := by
      rw [compress.eq_def]; rfl
    rw [hu, decompress_esc, ih]
    rfl
  | case3 rest h02 ih =>
    have hu : compress (0 :: rest) = 254 :: min 255 (countLeadZeros rest + 1) ::
        compress (rest.drop (min 255 (countLeadZeros rest + 1) - 1)) := by
      rw [compress.eq_def]; rfl
    have hk0 : min 255 (countLeadZeros rest + 1) ≠ 0 := by omega
    rw [hu, decompress_run _ hk0, ih]
    simp only [Option.map_some', Option.some.injEq]
    have hmin := Nat.min_le_right 255 (countLeadZeros rest + 1)
    obtain ⟨m, hm⟩ : ∃ m, min 255 (countLeadZeros rest + 1) = m + 1 :=
      ⟨min 255 (countLeadZeros rest + 1) - 1, by omega⟩
    have hmle : m ≤ countLeadZeros rest := by omega
    rw [hm]
    simp only [Nat.add_sub_cancel, List.replicate_succ, List.cons_append]
    rw [replicate_append_drop_of_le_countLeadZeros m rest hmle]
  | case4 b rest hb hz ih =>
    have hu : compress (b :: rest) = b :: compress rest := by
      rw [compress.eq_def]
      simp [hb, hz]
    rw [hu, decompress_lit b hb, ih]
    rfl

/-! ### Association-list lemmas -/

theorem wbLookup_wbSet_self (buf : WriteBuffer) (k : Key) (v : Option Value) :
    wbLookup (wbSet buf k v) k = some v := by
  induction buf with
  | nil => simp [wbSet, wbLookup]
  | cons hd tl ih =>
    obtain ⟨k', v'⟩ := hd
    by_cases h : k' = k
    · simp [wbSet, wbLookup, h]
    · simp [wbSet, wbLookup, h, ih]

theorem bidxLookup_bidxInsert_self (db : BackingIndex) (k : Key) (v : Value) :
    bidxLookup (bidxInsert db k v) k = some v := by
  induction db with
  | nil => simp [bidxInsert, bidxLookup]
  | cons hd tl ih =>
    obtain ⟨k', v'⟩ := hd
    by_cases h : k' = k
    · simp [bidxInsert, bidxLookup, h]
    · simp [bidxInsert, bidxLookup, h, ih]

theorem bidxLookup_bidxInsert_ne (db : BackingIndex) (k k' : Key) (v : Value)
    (h : k' ≠ k) : bidxLookup (bidxInsert db k' v) k = bidxLookup db k := by
  have h4 : ¬ (k = k') := fun hh => h hh.symm
  induction db with
  | nil => simp [bidxInsert, bidxLookup, h]
  | cons hd tl ih =>
    obtain ⟨k'', v''⟩ := hd
    by_cases h2 : k'' = k'
    · subst h2
      simp [bidxInsert, bidxLookup, h]
    · by_cases h3 : k'' = k
      · simp [bidxInsert, bidxLookup, h2, h3, h4]
      · simp [bidxInsert, bidxLookup, h2, h3, ih]

theorem bidxLookup_bidxDelete_ne (db : BackingIndex) (k k' : Key)
    (h : k' ≠ k) : bidxLookup (bidxDelete db k') k = bidxLookup db k := by
  have h4 : ¬ (k = k') := fun hh => h hh.symm
  induction db with
  | nil => simp [bidxDelete, bidxLookup]
  | cons hd tl ih =>
    obtain ⟨k'', v''⟩ := hd
    by_cases h2 : k'' = k'
    · subst h2
      simp [bidxDelete, bidxLookup, h4, h]
    · by_cases h3 : k'' = k
      · simp [bidxDelete, bidxLookup, h2, h3, h4]
      · simp [bidxDelete, bidxLookup, h2, h3, ih]

theorem wbLookup_mem (buf : WriteBuffer) (k : Key) (ov : Option Value)
    (h : wbLookup buf k = some ov) : (k, ov) ∈ buf := by
  induction buf with
  | nil => simp [wbLookup] at h
  | cons hd tl ih =>
    obtain ⟨k', v'⟩ := hd
    by_cases hk : k' = k
    · subst hk
      simp [wbLookup] at h
      subst h
      exact List.mem_cons_self _ _
    · simp [wbLookup, hk] at h
      exact List.mem_cons_of_mem _ (ih h)

theorem bidxLookup_not_mem (db : BackingIndex) (k : Key)
    (h : k ∉ db.map Prod.fst) : bidxLookup db k = none := by
  induction db with
  | nil => rfl
  | cons hd tl ih =>
    obtain ⟨k', v'⟩ := hd
    simp only [List.map_cons, List.mem_cons, not_or] at h
    have hk : k' ≠ k := fun hh => h.1 hh.symm
    simp [bidxLookup, hk, ih h.2]

theorem bidxLookup_bidxDelete_self (db : BackingIndex) (k : Key)
    (hnd : (db.map Prod.fst).Nodup) : bidxLookup (bidxDelete db k) k = none := by
  induction db with
  | nil => rfl
  | cons hd tl ih =>
    obtain ⟨k', v'⟩ := hd
    simp only [List.map_cons, List.nodup_cons] at hnd
    by_cases hk : k' = k
    · subst hk
      simp only [bidxDelete, if_pos rfl]
      exact bidxLookup_not_mem tl k' hnd.1
    · simp [bidxDelete, bidxLookup, hk, ih hnd.2]

theorem commitStep_ok_lookup_ne (db db' : BackingIndex) (k' : Key)
    (v : Option Value) (hstep : commitStep db k' v = .ok db') (k : Key)
    (hne : k' ≠ k) : bidxLookup db' k = bidxLookup db k := by
  match v with
  | none =>
    simp only [commitStep] at hstep
    cases hl : bidxLookup db k' with
    | none => rw [hl] at hstep; exact absurd hstep (by simp)
    | some w =>
      rw [hl] at hstep
      simp only [Except.ok.injEq] at hstep
      rw [← hstep]
      exact bidxLookup_bidxDelete_ne db k k' hne
  | some val =>
    simp only [commitStep, Except.ok.injEq] at hstep
    rw [← hstep]
    exact bidxLookup_bidxInsert_ne db k k' (compress val) hne

theorem commitLoop_cons_ok (db db1 : BackingIndex) (k : Key) (v : Option Value)
    (rest : WriteBuffer) (h : commitStep db k v = .ok db1) :
    commitLoop db ((k, v) :: rest) = commitLoop db1 rest := by
  simp [commitLoop, h]

theorem commitLoop_cons_error (db : BackingIndex) (k : Key) (v : Option Value)
    (rest : WriteBuffer) (e : DBError) (h : commitStep db k v = .error e) :
    commitLoop db ((k, v) :: rest) = (db, some e) := by
  simp [commitLoop, h]

theorem commitLoop_fst_lookup_not_mem (buf : WriteBuffer) (db : BackingIndex)
    (k : Key) (h : k ∉ wbKeys buf) :
    bidxLookup (commitLoop db buf).1 k = bidxLookup db k := by
  induction buf generalizing db with
  | nil => rfl
  | cons hd tl ih =>
    obtain ⟨k', v'⟩ := hd
    simp only [wbKeys, List.map_cons, List.mem_cons, not_or] at h
    have hne : k' ≠ k := fun hh => h.1 hh.symm
    cases hstep : commitStep db k' v' with
    | error e => rw [commitLoop_cons_error db k' v' tl e hstep]
    | ok db1 =>
      rw [commitLoop_cons_ok db db1 k' v' tl hstep]
      rw [ih db1 h.2]
      exact commitStep_ok_lookup_ne db db1 k' v' hstep k hne

theorem commitLoop_ok_mem (buf : WriteBuffer) (db db' : BackingIndex)
    (k : Key) (v : Value) (hnd : (wbKeys buf).Nodup)
    (hmem : (k, some v) ∈ buf) (hloop : commitLoop db buf = (db', none)) :
    bidxLookup db' k = some (compress v) := by
  induction buf generalizing db with
  | nil => simp at hmem
  | cons hd tl ih =>
    obtain ⟨k1, v1⟩ := hd
    cases hstep : commitStep db k1 v1 with
    | error e =>
      rw [commitLoop_cons_error db k1 v1 tl e hstep] at hloop
      simp at hloop
    | ok db1 =>
      rw [commitLoop_cons_ok db db1 k1 v1 tl hstep] at hloop
      simp only [wbKeys, List.map_cons, List.nodup_cons] at hnd
      rcases List.mem_cons.mp hmem with hhd | htl
      · obtain ⟨hk, hv⟩ := Prod.ext_iff.mp hhd
        simp only at hk hv
        subst hk
        subst hv
        simp only [commitStep, Except.ok.injEq] at hstep
        have h1 : bidxLookup (commitLoop db1 tl).1 k = bidxLookup db1 k :=
          commitLoop_fst_lookup_not_mem tl db1 k hnd.1
        rw [hloop] at h1
        simp only at h1
        rw [h1, ← hstep]
        exact bidxLookup_bidxInsert_self db k (compress v)
      · exact ih db1 hnd.2 htl hloop

theorem commitLoop_error_shape (buf : WriteBuffer) (db db' : BackingIndex)
    (e : DBError) (hloop : commitLoop db buf = (db', some e)) :
    e = .recordNotFound ∧
    ∃ pre k suf, buf = pre ++ (k, none) :: suf ∧
      applyEntries db pre = some db' ∧ bidxLookup db' k = none := by
  induction buf generalizing db with
  | nil => simp [commitLoop] at hloop
  | cons hd tl ih =>
    obtain ⟨k1, v1⟩ := hd
    cases hstep : commitStep db k1 v1 with
    | error e1 =>
      rw [commitLoop_cons_error db k1 v1 tl e1 hstep] at hloop
      simp only [Prod.mk.injEq, Option.some.injEq] at hloop
      obtain ⟨hdb, he⟩ := hloop
      subst hdb
      match v1 with
      | some val => simp [commitStep] at hstep
      | none =>
        simp only [commitStep] at hstep
        cases hl : bidxLookup db k1 with
        | some w => rw [hl] at hstep; exact absurd hstep (by simp)
        | none =>
          rw [hl] at hstep
          simp only [Except.error.injEq] at hstep
          exact ⟨by rw [← he, ← hstep], [], k1, tl, rfl, rfl, hl⟩
    | ok db1 =>
      rw [commitLoop_cons_ok db db1 k1 v1 tl hstep] at hloop
      obtain ⟨he, pre, k, suf, hbuf, happ, hlk⟩ := ih db1 hloop
      refine ⟨he, (k1, v1) :: pre, k, suf, by simp [hbuf], ?_, hlk⟩
      simp only [applyEntries, hstep]
      exact happ

/-! ### Claims about the buffered store -/

/-- Claim C1, counterexample: committing a tombstone for a key absent from
the BackingIndex is not a no-op — `commit` fails with `RecordNotFound`
(the `db.get` in the delete branch raises and is not caught). -/
theorem commit_tombstone_absent_raises :
    commit ⟨[([0], none)], []⟩
      = (⟨[([0], none)], []⟩, some DBError.recordNotFound) := by
  decide

/-- Claim C1 (amended): during commit, an entry with a pending value is
compressed and written, overwriting any existing BackingIndex entry for
the key; an entry with a tombstone deletes the key from the BackingIndex
when it is present, but when the key is absent the lookup raises
`RecordNotFound` and the commit fails. -/
theorem commit_entry_semantics (db : BackingIndex) (k : Key) (v : Value)
    (rest : WriteBuffer) :
    commitLoop db ((k, some v) :: rest)
        = commitLoop (bidxInsert db k (compress v)) rest ∧
    bidxLookup (bidxInsert db k (compress v)) k = some (compress v) ∧
    (bidxLookup db k = none →
      commitLoop db ((k, none) :: rest) = (db, some .recordNotFound)) ∧
    (∀ w, bidxLookup db k = some w →
      commitLoop db ((k, none) :: rest) = commitLoop (bidxDelete db k) rest) := by
  refine ⟨commitLoop_cons_ok db _ k (some v) rest rfl,
    bidxLookup_bidxInsert_self db k (compress v), ?_, ?_⟩
  · intro h
    exact commitLoop_cons_error db k none rest _ (by simp [commitStep, h])
  · intro w hw
    exact commitLoop_cons_ok db _ k none rest (by simp [commitStep, hw])

/-- Witness for `commit_entry_semantics` at concrete inputs. -/
theorem commit_entry_semantics_witness :
    commitLoop ([] : BackingIndex) [([0], none)]
        = ([], some DBError.recordNotFound) ∧
    commitLoop [([0], [3])] [([0], none)]
        = commitLoop (bidxDelete [([0], [3])] [0]) [] :=
  ⟨(commit_entry_semantics [] [0] [9] []).2.2.1 rfl,
   (commit_entry_semantics [([0], [3])] [0] [9] []).2.2.2 [3] (by decide)⟩

/-- Claim C2: a write-buffer entry shadows the BackingIndex: after
`put k v`, `get k` returns `v`; after `delete k`, `get k` signals
NotFound; and in general a buffered entry decides `get` regardless of the
backing contents. -/
theorem writeBuffer_shadows_backing (s : CodernityDB) (k : Key) (v : Value) :
    get (put s k (some v)) k = .ok v ∧
    get (delete s k) k = .error .notFound ∧
    (∀ w, wbLookup s.uncommitted k = some (some w) → get s k = .ok w) ∧
    (wbLookup s.uncommitted k = some none → get s k = .error .notFound) := by
  refine ⟨?_, ?_, ?_, ?_⟩
  · simp [get, put, wbLookup_wbSet_self]
  · simp [get, delete, wbLookup_wbSet_self]
  · intro w hw
    simp [get, hw]
  · intro hw
    simp [get, hw]

/-- Witness for `writeBuffer_shadows_backing`: the backing index holds a
different value `[9]` for the key in every conjunct. -/
theorem writeBuffer_shadows_backing_witness :
    get (put ⟨[], [([5], [9])]⟩ [5] (some [1])) [5] = .ok [1] ∧
    get (delete ⟨[], [([5], [9])]⟩ [5]) [5] = .error .notFound ∧
    get ⟨[([5], some [1])], [([5], [9])]⟩ [5] = .ok [1] ∧
    get ⟨[([5], none)], [([5], [9])]⟩ [5] = .error .notFound :=
  ⟨(writeBuffer_shadows_backing ⟨[], [([5], [9])]⟩ [5] [1]).1,
   (writeBuffer_shadows_backing ⟨[], [([5], [9])]⟩ [5] [1]).2.1,
   (writeBuffer_shadows_backing ⟨[([5], some [1])], [([5], [9])]⟩ [5] [1]).2.2.1
     [1] (by decide),
   (writeBuffer_shadows_backing ⟨[([5], none)], [([5], [9])]⟩ [5] [1]).2.2.2
     (by decide)⟩

/-- Claim C3: after a successful commit the write buffer is empty, `get`
reflects only the BackingIndex (shown at an arbitrary key `k2`), a key
`k` whose last buffered `put` value was `v` now reads back as `v`, and a
repeated commit with no intervening `put`/`delete` is a no-op. -/
theorem commit_clears_and_reflects (s : CodernityDB) (k k2 : Key) (v : Value)
    (hnd : (wbKeys s.uncommitted).Nodup)
    (hlast : wbLookup s.uncommitted k = some (some v))
    (hok : (commit s).2 = none) :
    (commit s).1.uncommitted = [] ∧
    get (commit s).1 k2 = backingGet (commit s).1.db k2 ∧
    get (commit s).1 k = .ok v ∧
    commit (commit s).1 = ((commit s).1, none) := by
  rcases hloop : commitLoop s.db s.uncommitted with ⟨db0, e0⟩
  cases e0 with
  | some e =>
    have hc : commit s = (⟨s.uncommitted, db0⟩, some e) := by
      simp [commit, hloop]
    rw [hc] at hok
    simp at hok
  | none =>
    have hc : commit s = (⟨[], db0⟩, none) := by
      simp [commit, hloop]
    rw [hc]
    refine ⟨rfl, rfl, ?_, rfl⟩
    have hmem := wbLookup_mem _ _ _ hlast
    have hlk := commitLoop_ok_mem s.uncommitted s.db db0 k v hnd hmem hloop
    show backingGet db0 k = .ok v
    simp [backingGet, hlk, decompress_compress]

/-- Witness for `commit_clears_and_reflects` at a concrete store. -/
theorem commit_clears_and_reflects_witness :
    (commit ⟨[([2], some [3])], []⟩).1.uncommitted = [] ∧
    get (commit ⟨[([2], some [3])], []⟩).1 [4]
      = backingGet (commit ⟨[([2], some [3])], []⟩).1.db [4] ∧
    get (commit ⟨[([2], some [3])], []⟩).1 [2] = .ok [3] ∧
    commit (commit ⟨[([2], some [3])], []⟩).1
      = ((commit ⟨[([2], some [3])], []⟩).1, none) :=
  commit_clears_and_reflects ⟨[([2], some [3])], []⟩ [2] [4] [3]
    (by decide) (by decide) (by decide)

/-- Claim C4, counterexample: a fault mid-commit (tombstone for an absent
key as second entry) leaves the write buffer with ALL its entries — the
first entry was processed (its value is in the backing index) yet it is
not cleared from the buffer, since `self.uncommitted.clear()` runs only
after the whole loop. -/
theorem commit_fault_retains_processed_entries :
    commit ⟨[([1], some [7]), ([2], none)], []⟩
      = (⟨[([1], some [7]), ([2], none)], [([1], [7])]⟩,
         some DBError.recordNotFound) := by
  have hc : compress [7] = [7] := by simp [compress]
  have hstate : commit ⟨[([1], some [7]), ([2], none)], []⟩
      = (⟨[([1], some [7]), ([2], none)], [([1], compress [7])]⟩,
         some DBError.recordNotFound) := rfl
  rw [hstate, hc]

/-- Claim C4 (amended): a fault mid-commit can only be `RecordNotFound`;
it leaves the BackingIndex partially updated — exactly the entries before
the faulting tombstone have been applied — and leaves the WriteBuffer
unchanged, retaining all entries including the processed ones. -/
theorem commit_fault_state (s : CodernityDB) (e : DBError)
    (h : (commit s).2 = some e) :
    e = .recordNotFound ∧
    (commit s).1.uncommitted = s.uncommitted ∧
    ∃ pre k suf, s.uncommitted = pre ++ (k, none) :: suf ∧
      applyEntries s.db pre = some ((commit s).1.db) ∧
      bidxLookup ((commit s).1.db) k = none := by
  rcases hloop : commitLoop s.db s.uncommitted with ⟨db0, e0⟩
  cases e0 with
  | none =>
    have hc : commit s = (⟨[], db0⟩, none) := by
      simp [commit, hloop]
    rw [hc] at h
    simp at h
  | some e1 =>
    have hc : commit s = (⟨s.uncommitted, db0⟩, some e1) := by
      simp [commit, hloop]
    rw [hc] at h
    simp only [Option.some.injEq] at h
    subst h
    obtain ⟨he, pre, k, suf, hbuf, happ, hlk⟩ :=
      commitLoop_error_shape s.uncommitted s.db db0 e1 hloop
    rw [hc]
    exact ⟨he, rfl, pre, k, suf, hbuf, happ, hlk⟩

/-- Witness for `commit_fault_state` at the concrete faulting store. -/
theorem commit_fault_state_witness :
    DBError.recordNotFound = DBError.recordNotFound ∧
    (commit ⟨[([1], some [7]), ([2], none)], []⟩).1.uncommitted
        = [([1], some [7]), ([2], none)] ∧
    ∃ pre k suf,
      ([([1], some [7]), ([2], none)] : WriteBuffer)
          = pre ++ (k, none) :: suf ∧
      applyEntries [] pre
          = some ((commit ⟨[([1], some [7]), ([2], none)], []⟩).1.db) ∧
      bidxLookup ((commit ⟨[([1], some [7]), ([2], none)], []⟩).1.db) k
          = none :=
  commit_fault_state ⟨[([1], some [7]), ([2], none)], []⟩
    DBError.recordNotFound (by decide)

/-- Claim C9: `decompress` undoes `compress` on every byte string, and a
value written through `put`+`commit` (stored compressed) reads back
unchanged through `get` (decompressed). -/
theorem compress_decompress_roundtrip :
    (∀ v : Value, decompress (compress v) = some v) ∧
    (∀ (db : BackingIndex) (k : Key) (v : Value),
      get (commit (put ⟨[], db⟩ k (some v))).1 k = .ok v) := by
  refine ⟨decompress_compress, ?_⟩
  intro db k v
  have h1 : commit (put ⟨[], db⟩ k (some v))
      = (⟨[], bidxInsert db k (compress v)⟩, none) := by
    simp [put, wbSet, commit, commitLoop, commitStep]
  rw [h1]
  show backingGet (bidxInsert db k (compress v)) k = .ok v
  simp [backingGet, bidxLookup_bidxInsert_self, decompress_compress]

/-- Claim C10: `put k None` is the same operation as `delete k` — the
buffer states are equal — so `get` signals NotFound, and a subsequent
commit removes a present key from the BackingIndex (for a unique-key
index, the key is gone afterwards). -/
theorem put_none_equals_delete (s : CodernityDB) (k : Key) :
    put s k none = delete s k ∧
    get (put s k none) k = .error .notFound ∧
    (∀ (db : BackingIndex) (w : Value), bidxLookup db k = some w →
      commit (put ⟨[], db⟩ k none) = (⟨[], bidxDelete db k⟩, none)) ∧
    (∀ db : BackingIndex, (db.map Prod.fst).Nodup →
      bidxLookup (bidxDelete db k) k = none) := by
  refine ⟨rfl, ?_, ?_, ?_⟩
  · simp [get, put, wbLookup_wbSet_self]
  · intro db w hw
    simp [put, wbSet, commit, commitLoop, commitStep, hw]
  · intro db hnd
    exact bidxLookup_bidxDelete_self db k hnd

/-- Witness for `put_none_equals_delete` at concrete inputs. -/
theorem put_none_equals_delete_witness :
    put ⟨[], []⟩ [3] none = delete ⟨[], []⟩ [3] ∧
    get (put ⟨[], []⟩ [3] none) [3] = .error .notFound ∧
    commit (put ⟨[], [([3], [1])]⟩ [3] none)
      = (⟨[], bidxDelete [([3], [1])] [3]⟩, none) ∧
    bidxLookup (bidxDelete [([3], [1])] [3]) [3] = none :=
  ⟨(put_none_equals_delete ⟨[], []⟩ [3]).1,
   (put_none_equals_delete ⟨[], []⟩ [3]).2.1,
   (put_none_equals_delete ⟨[], []⟩ [3]).2.2.1 [([3], [1])] [1] (by decide),
   (put_none_equals_delete ⟨[], []⟩ [3]).2.2.2 [([3], [1])] (by decide)⟩

/-! ### Decoder lemmas -/

theorem parseStrs_nil : parseStrs [] = some [] := by
  rw [parseStrs.eq_def]

theorem consume_nil : consume [] = none := rfl

theorem parseStrs_cons_field (s r : List Nat) :
    parseStrs (encodeStr s ++ r) = (parseStrs r).map (fun xs => s :: xs) := by
  have hle : s.length ≤ (s ++ r).length := by simp
  show parseStrs (0 :: s.length :: (s ++ r)) = _
  rw [parseStrs.eq_def]
  show (if s.length ≤ (s ++ r).length then
      (parseStrs ((s ++ r).drop s.length)).map
        (fun xs => ((s ++ r).take s.length) :: xs)
    else none) = _
  rw [if_pos hle, List.take_left, List.drop_left]

theorem parseStrs_single (s : List Nat) : parseStrs (encodeStr s) = some [s] := by
  have h := parseStrs_cons_field s []
  rw [List.append_nil] at h
  rw [h, parseStrs_nil]
  rfl

theorem consume_encodeStrItem (s tail : List Nat) :
    consume ((0 :: s.length :: s) ++ tail)
      = some (.str s, (0 :: s.length :: s).length) := by
  have hle : s.length ≤ (s ++ tail).length := by simp
  show consume (0 :: s.length :: (s ++ tail)) = _
  rw [consume.eq_def]
  show (if s.length ≤ (s ++ tail).length then
      some (ItemData.str ((s ++ tail).take s.length), 2 + s.length)
    else none) = _
  rw [if_pos hle, List.take_left]
  have h2 : (0 :: s.length :: s).length = 2 + s.length := by
    simp only [List.length_cons]
    omega
  rw [h2]

theorem consume_encodeBlock (b : BlockRecord) (tail : List Nat) :
    consume (encodeBlock b ++ tail)
      = some (.items [b.header, b.txs, b.uncles], (encodeBlock b).length) := by
  have hle : (encodeStr b.header ++ encodeStr b.txs ++ encodeStr b.uncles).length
      ≤ ((encodeStr b.header ++ encodeStr b.txs ++ encodeStr b.uncles)
          ++ tail).length := by simp
  show consume
      (1 :: (encodeStr b.header ++ encodeStr b.txs ++ encodeStr b.uncles).length
        :: ((encodeStr b.header ++ encodeStr b.txs ++ encodeStr b.uncles)
            ++ tail)) = _
  rw [consume.eq_def]
  show (if (encodeStr b.header ++ encodeStr b.txs ++ encodeStr b.uncles).length
      ≤ ((encodeStr b.header ++ encodeStr b.txs ++ encodeStr b.uncles)
          ++ tail).length then
      match parseStrs
          (((encodeStr b.header ++ encodeStr b.txs ++ encodeStr b.uncles)
            ++ tail).take
            (encodeStr b.header ++ encodeStr b.txs
              ++ encodeStr b.uncles).length) with
      | some xs => some (ItemData.items xs,
          2 + (encodeStr b.header ++ encodeStr b.txs
            ++ encodeStr b.uncles).length)
      | none => none
    else none) = _
  rw [if_pos hle, List.take_left]
  have hps : parseStrs (encodeStr b.header ++ encodeStr b.txs
      ++ encodeStr b.uncles) = some [b.header, b.txs, b.uncles] := by
    rw [List.append_assoc, parseStrs_cons_field, parseStrs_cons_field,
      parseStrs_single]
    rfl
  rw [hps]
  have hlen : (encodeBlock b).length
      = 2 + (encodeStr b.header ++ encodeStr b.txs
          ++ encodeStr b.uncles).length := by
    simp [encodeBlock]
    omega
  rw [hlen]

theorem blocksAux_nil (off : Nat) : blocksAux [] off = ([], none, off) := by
  rw [blocksAux.eq_def]

theorem blocksAux_consume_none (l : List Nat) (off : Nat) (hne : l ≠ [])
    (h : consume l = none) : blocksAux l off = ([], some off, off) := by
  match l with
  | [] => exact absurd rfl hne
  | a :: rest =>
    rw [blocksAux.eq_def]
    split
    · rename_i heq
      exact absurd heq (by simp)
    · rename_i a' rest' heq
      rw [← heq]
      split
      · rfl
      · rename_i it2 n2 heq2
        rw [h] at heq2
        exact absurd heq2 (by simp)

theorem blocksAux_consume_some (l : List Nat) (off : Nat) (it : ItemData)
    (n : Nat) (h : consume l = some (it, n)) :
    blocksAux l off = (toBlock it :: (blocksAux (l.drop n) (off + n)).1,
      (blocksAux (l.drop n) (off + n)).2) := by
  match l with
  | [] => rw [consume_nil] at h; exact absurd h (by simp)
  | a :: rest =>
    rw [blocksAux.eq_def]
    split
    · rename_i heq
      exact absurd heq (by simp)
    · rename_i a' rest' heq
      rw [← heq]
      split
      · rename_i heq2
        rw [h] at heq2
        exact absurd heq2 (by simp)
      · rename_i it2 n2 heq2
        rw [h] at heq2
        simp only [Option.some.injEq, Prod.mk.injEq] at heq2
        obtain ⟨h1, h2⟩ := heq2
        subst h1
        subst h2
        rfl

theorem streamOf_nil : streamOf [] = [] := rfl

theorem streamOf_cons (it : SItem) (rest : List SItem) :
    streamOf (it :: rest) = encodeS it ++ streamOf rest := by
  simp [streamOf]

/-- The `blocks()` generator on a stream of framed items yields exactly
one result per item, in order, with no fatal error, ending at the stream
length. -/
theorem blocksAux_streamOf (its : List SItem) :
    ∀ off : Nat, blocksAux (streamOf its) off
      = (its.map sResult, none, off + (streamOf its).length) := by
  induction its with
  | nil =>
    intro off
    rw [streamOf_nil, blocksAux_nil]
    simp
  | cons it rest ih =>
    intro off
    rw [streamOf_cons]
    cases it with
    | good b =>
      have hc : consume (encodeBlock b ++ streamOf rest)
          = some (.items [b.header, b.txs, b.uncles], (encodeBlock b).length) :=
        consume_encodeBlock b (streamOf rest)
      rw [show encodeS (SItem.good b) = encodeBlock b from rfl]
      rw [blocksAux_consume_some _ _ _ _ hc]
      rw [List.drop_left]
      rw [ih]
      simp only [List.map_cons, sResult, List.length_append]
      refine congrArg₂ _ ?_ (congrArg₂ _ rfl ?_)
      · rfl
      · omega
    | bad s =>
      have hc : consume ((0 :: s.length :: s) ++ streamOf rest)
          = some (.str s, (0 :: s.length :: s).length) :=
        consume_encodeStrItem s (streamOf rest)
      rw [show encodeS (SItem.bad s) = 0 :: s.length :: s from rfl]
      rw [blocksAux_consume_some _ _ _ _ hc]
      rw [List.drop_left]
      rw [ih]
      simp only [List.map_cons, sResult, List.length_append]
      refine congrArg₂ _ ?_ (congrArg₂ _ rfl ?_)
      · rfl
      · omega

/-! ### Drain-barrier lemmas -/

theorem drainLoop_exit_zero (fuel : Nat) :
    ∀ (q : Nat) (c : Nat → Nat) (q' : Nat),
      drainLoop fuel q c = some q' → q' = 0 := by
  induction fuel with
  | zero =>
    intro q c q' h
    by_cases hq : q = 0
    · subst hq
      simp [drainLoop] at h
      omega
    · simp [drainLoop, hq] at h
  | succ m ih =>
    intro q c q' h
    by_cases hq : q = 0
    · subst hq
      simp [drainLoop] at h
      omega
    · simp only [drainLoop, if_neg hq] at h
      exact ih (c q) c q' h

theorem drainLoop_pred (n : Nat) :
    drainLoop n n (fun q => q - 1) = some 0 := by
  induction n with
  | zero => simp [drainLoop]
  | succ m ih =>
    simp only [drainLoop, Nat.succ_ne_zero, if_false]
    simpa using ih

/-! ### Claims about the decoder and the import/export pipelines -/

/-- Claim C5: decoding a stream that is the concatenation of the
encodings of `N` block records yields exactly the `N` records, as `Emit`
results in their original order, with no fatal error, and the final
cursor offset equals the stream length. -/
theorem blocks_decodes_valid_stream (rs : List BlockRecord) :
    blocks (streamOf (rs.map SItem.good))
      = (rs.map some, none, (streamOf (rs.map SItem.good)).length) := by
  show blocksAux (streamOf (rs.map SItem.good)) 0 = _
  rw [blocksAux_streamOf]
  simp only [List.map_map, Nat.zero_add]
  rfl

/-- Claim C6: `import_blocks` aborts before enqueuing anything when the
first item cannot be admitted: a fatal RLP error on the first item, an
invalid (malformed) first item, or a first block whose own hash and
parent hash are both unknown to the chain (`UnlinkedChain`) each end
the import with nothing enqueued. -/
theorem import_aborts_on_first_item (knows : List Nat → Bool)
    (consumer : Nat → Nat) (fuel : Nat) :
    (∀ data : List Nat, data ≠ [] → consume data = none →
      import_blocks knows consumer fuel data = some (.fatalRLP 0, [])) ∧
    (∀ (data : List Nat) (it : ItemData) (n : Nat),
      consume data = some (it, n) → toBlock it = none →
      import_blocks knows consumer fuel data = some (.firstInvalid, [])) ∧
    (∀ (data : List Nat) (it : ItemData) (n : Nat) (b : BlockRecord),
      consume data = some (it, n) → toBlock it = some b →
      knows (blockHash b) = false → knows (parentHash b) = false →
      import_blocks knows consumer fuel data
        = some (.unlinkedChain, [])) := by
  refine ⟨?_, ?_, ?_⟩
  · intro data hne h
    match data with
    | [] => exact absurd rfl hne
    | a :: rest => simp [import_blocks, h]
  · intro data it n h htb
    match data with
    | [] => rw [consume_nil] at h; exact absurd h (by simp)
    | a :: rest => simp [import_blocks, h, htb]
  · intro data it n b h htb hk1 hk2
    match data with
    | [] => rw [consume_nil] at h; exact absurd h (by simp)
    | a :: rest => simp [import_blocks, h, htb, hk1, hk2]

/-- Witness for `import_aborts_on_first_item` at concrete streams: a
stream whose first byte is an invalid tag, a stream whose first item is a
byte-string (not a 3-field block), and a one-block stream with an oracle
that knows nothing. -/
theorem import_aborts_on_first_item_witness :
    import_blocks (fun _ => false) (fun q => q) 0 [2]
        = some (.fatalRLP 0, []) ∧
    import_blocks (fun _ => false) (fun q => q) 0 [0, 0]
        = some (.firstInvalid, []) ∧
    import_blocks (fun _ => false) (fun q => q) 0
        (streamOf [SItem.good ⟨[7], [], []⟩])
        = some (.unlinkedChain, []) :=
  ⟨(import_aborts_on_first_item (fun _ => false) (fun q => q) 0).1
      [2] (by simp) rfl,
   (import_aborts_on_first_item (fun _ => false) (fun q => q) 0).2.1
      [0, 0] (.str []) 2 rfl rfl,
   (import_aborts_on_first_item (fun _ => false) (fun q => q) 0).2.2
      (streamOf [SItem.good ⟨[7], [], []⟩]) (.items [[7], [], []])
      (encodeBlock ⟨[7], [], []⟩).length ⟨[7], [], []⟩
      (by rw [streamOf_cons]; exact consume_encodeBlock ⟨[7], [], []⟩ _)
      rfl rfl rfl⟩

/-- Unfolding of `import_blocks` on a stream whose first item is a
linkable block and whose decode has no fatal error: the call reaches the
drain barrier with the valid records enqueued in decode order. -/
theorem import_blocks_run (knows : List Nat → Bool) (consumer : Nat → Nat)
    (fuel : Nat) (data : List Nat) (it : ItemData) (n : Nat) (b : BlockRecord)
    (hcons : consume data = some (it, n)) (htb : toBlock it = some b)
    (hlink : (knows (blockHash b) || knows (parentHash b)) = true)
    (hfatal : (blocks data).2.1 = none) :
    import_blocks knows consumer fuel data
      = match drainLoop fuel ((blocks data).1.filterMap id).length consumer with
        | none => none
        | some q => some (.done q, (blocks data).1.filterMap id) := by
  match data with
  | [] => rw [consume_nil] at hcons; exact absurd hcons (by simp)
  | a :: rest =>
    simp only [import_blocks, hcons, htb, hlink, if_true]
    rw [hfatal]

/-- Claim C7: on a stream whose first item is a linkable block and whose
later items may be malformed (but well-framed), `import_blocks` enqueues
exactly the valid records in decode order, skipping the malformed ones
without aborting, and if the call returns, the queue was observed empty
at the drain barrier; with a consumer that consumes one record per sleep
the call does return. -/
theorem import_skips_malformed (knows : List Nat → Bool)
    (consumer : Nat → Nat) (fuel : Nat) (b : BlockRecord) (rest : List SItem)
    (hlink : (knows (blockHash b) || knows (parentHash b)) = true) :
    (∀ r, import_blocks knows consumer fuel
        (streamOf (SItem.good b :: rest)) = some r →
      r = (.done 0, ((SItem.good b :: rest).map sResult).filterMap id)) ∧
    import_blocks knows (fun q => q - 1)
        (((SItem.good b :: rest).map sResult).filterMap id).length
        (streamOf (SItem.good b :: rest))
      = some (.done 0, ((SItem.good b :: rest).map sResult).filterMap id) := by
  have hstream : blocks (streamOf (SItem.good b :: rest))
      = ((SItem.good b :: rest).map sResult, none,
         0 + (streamOf (SItem.good b :: rest)).length) := by
    show blocksAux (streamOf (SItem.good b :: rest)) 0 = _
    rw [blocksAux_streamOf]
  have hcons : consume (streamOf (SItem.good b :: rest))
      = some (.items [b.header, b.txs, b.uncles], (encodeBlock b).length) := by
    rw [streamOf_cons]
    exact consume_encodeBlock b _
  have hfatal : (blocks (streamOf (SItem.good b :: rest))).2.1 = none := by
    rw [hstream]
  constructor
  · intro r hr
    rw [import_blocks_run knows consumer fuel _ _ _ b hcons rfl hlink hfatal]
      at hr
    rcases hd : drainLoop fuel
        (((blocks (streamOf (SItem.good b :: rest))).1.filterMap id)).length
        consumer with _ | q
    · rw [hd] at hr
      simp at hr
    · rw [hd] at hr
      simp only [Option.some.injEq] at hr
      have hq0 : q = 0 := drainLoop_exit_zero fuel _ consumer q hd
      rw [← hr, hq0, hstream]
  · rw [import_blocks_run knows (fun q => q - 1) _ _ _ _ b hcons rfl hlink
      hfatal]
    rw [hstream]
    simp only
    rw [drainLoop_pred]

/-- Witness for `import_skips_malformed`: a two-item stream (one valid
block, one malformed byte-string item) with an oracle that knows the
first block's hash; the import returns, having enqueued exactly the one
valid record, with the queue observed empty. -/
theorem import_skips_malformed_witness :
    import_blocks (fun h => decide (h = [0, 7])) (fun q => q - 1)
        (((SItem.good ⟨[7], [], []⟩ :: [SItem.bad [9]]).map
          sResult).filterMap id).length
        (streamOf (SItem.good ⟨[7], [], []⟩ :: [SItem.bad [9]]))
      = some (.done 0, ((SItem.good ⟨[7], [], []⟩ :: [SItem.bad [9]]).map
          sResult).filterMap id) :=
  (import_skips_malformed (fun h => decide (h = [0, 7])) (fun q => q)
    0 ⟨[7], [], []⟩ [SItem.bad [9]] (by decide)).2

/-! ### Export lemmas -/

theorem exportLoop_ok (s : CodernityDB) (hashOf : Int → Key)
    (val : Int → List Nat) :
    ∀ (count : Nat) (n : Int),
      (∀ i : Nat, i < count → get s (hashOf (n + i)) = .ok (val (n + i))) →
      exportLoop s hashOf n count
        = (((List.range count).map (fun i : Nat => val (n + (i : Int)))).flatten,
           none) := by
  intro count
  induction count with
  | zero =>
    intro n _
    simp [exportLoop]
  | succ m ih =>
    intro n h
    have h0 : get s (hashOf n) = .ok (val n) := by
      have h1 := h 0 (Nat.succ_pos m)
      simpa using h1
    have hrest : ∀ i : Nat, i < m →
        get s (hashOf (n + 1 + i)) = .ok (val (n + 1 + i)) := by
      intro i hi
      have h1 := h (i + 1) (by omega)
      have hcast : n + 1 + (i : Int) = n + ((i + 1 : Nat) : Int) := by
        push_cast
        ring
      rw [hcast]
      exact h1
    simp only [exportLoop, h0]
    rw [ih (n + 1) hrest]
    rw [List.range_succ_eq_map, List.map_cons, List.flatten_cons,
      List.map_map]
    have hmap : (List.range m).map
          ((fun i : Nat => val (n + (i : Int))) ∘ Nat.succ)
        = (List.range m).map (fun i : Nat => val (n + 1 + (i : Int))) := by
      refine List.map_congr_left ?_
      intro i _
      simp only [Function.comp]
      congr 1
      push_cast
      ring
    rw [hmap]
    have hn0 : n + ((0 : Nat) : Int) = n := by
      push_cast
      ring
    rw [hn0]

/-- Claim C8: `export_blocks` validates its range before producing any
output — `from < 0`, `to < from` or `to > head` each fail with
RangeInvalid and write no bytes — and otherwise emits, for each block
number in `[from, to]` ascending, the raw stored bytes of that block's
canonical hash, concatenated oldest first. -/
theorem export_validates_range (s : CodernityDB) (head : Int)
    (hashOf : Int → Key) (from_ to_ : Int) (val : Int → List Nat)
    (hvals : ∀ n : Int, from_ ≤ n → n ≤ to_ →
      get s (hashOf n) = .ok (val n)) :
    ((from_ < 0 ∨ to_ < from_ ∨ to_ > head) →
      export_blocks s head hashOf from_ to_ = ([], some .rangeInvalid)) ∧
    (0 ≤ from_ → from_ ≤ to_ → to_ ≤ head →
      export_blocks s head hashOf from_ to_
        = (((List.range (to_ - from_ + 1).toNat).map
            (fun i : Nat => val (from_ + (i : Int)))).flatten, none)) := by
  constructor
  · intro hbad
    simp only [export_blocks]
    split_ifs with h1 h2 h3
    · rfl
    · rfl
    · rfl
    · exact absurd hbad (by omega)
  · intro hf hft hth
    have h1 : ¬ (from_ < 0) := by omega
    have h2 : ¬ (to_ < from_) := by omega
    have h3 : ¬ (to_ > head) := by omega
    have hhyp : ∀ i : Nat, i < (to_ - from_ + 1).toNat →
        get s (hashOf (from_ + i)) = .ok (val (from_ + i)) := by
      intro i hi
      have hle1 : from_ ≤ from_ + i := by omega
      have hle2 : from_ + (i : Int) ≤ to_ := by omega
      exact hvals (from_ + i) hle1 hle2
    simp only [export_blocks, if_neg h1, if_neg h2, if_neg h3]
    rw [exportLoop_ok s hashOf val ((to_ - from_ + 1).toNat) from_ hhyp]
    rfl

/-- Witness for `export_validates_range`: an invalid range writes
nothing; the valid range `[0, 0]` over a one-entry store emits exactly
the stored bytes of block 0's hash. -/
theorem export_validates_range_witness :
    export_blocks ⟨[], [([1], [5])]⟩ 0 (fun _ => [1]) (-1) 0
        = ([], some .rangeInvalid) ∧
    export_blocks ⟨[], [([1], [5])]⟩ 0 (fun _ => [1]) 0 0 = ([5], none) :=
  ⟨(export_validates_range ⟨[], [([1], [5])]⟩ 0 (fun _ => [1]) (-1) 0
      (fun _ => [5]) (by intro n h1 h2; show get ⟨[], [([1], [5])]⟩ [1] = Except.ok [5]; rfl)).1
      (Or.inl (by decide)),
   (export_validates_range ⟨[], [([1], [5])]⟩ 0 (fun _ => [1]) 0 0
      (fun _ => [5]) (by intro n h1 h2; show get ⟨[], [([1], [5])]⟩ [1] = Except.ok [5]; rfl)).2
      (by decide) (by decide) (by decide)⟩

end Pyethapp
